import Mathlib

/-!
Verification development for benchls: a least-squares fit of Go benchmark
results against user-supplied arithmetic formulas.

The embedding models float64 values as exact rationals extended with the
IEEE special values (plus/minus infinity and NaN): benchls performs no
operation where rounding is observable in the properties below, so finite
arithmetic is modelled exactly.  Signed zero is not modelled (Go's literals
and the inputs below produce positive zeros only).
-/

attribute [local semireducible] Rat.add Rat.sub Rat.mul Rat.inv

/-- Model of a float64 value: an exact rational, an infinity, or NaN.
Rounding of finite arithmetic is not modelled (all properties below involve
exactly representable values); signed zero is collapsed to `fin 0`. -/
inductive FP where
  | fin (q : ℚ)
  | pinf
  | ninf
  | nan
deriving DecidableEq

/-- IEEE negation. -/
def FP.neg : FP → FP
  | .fin q => .fin (-q)
  | .pinf => .ninf
  | .ninf => .pinf
  | .nan => .nan

/-- IEEE addition (exact on finite arguments). -/
def FP.add : FP → FP → FP
  | .fin q, .fin r => .fin (q + r)
  | .fin _, .pinf => .pinf
  | .fin _, .ninf => .ninf
  | .pinf, .fin _ => .pinf
  | .ninf, .fin _ => .ninf
  | .pinf, .pinf => .pinf
  | .ninf, .ninf => .ninf
  | .pinf, .ninf => .nan
  | .ninf, .pinf => .nan
  | _, _ => .nan

/-- IEEE subtraction: `a - b = a + (-b)`. -/
def FP.sub (a b : FP) : FP := a.add b.neg

/-- IEEE multiplication (exact on finite arguments). -/
def FP.mul : FP → FP → FP
  | .fin q, .fin r => .fin (q * r)
  | .fin q, .pinf => if q > 0 then .pinf else if q < 0 then .ninf else .nan
  | .fin q, .ninf => if q > 0 then .ninf else if q < 0 then .pinf else .nan
  | .pinf, .fin r => if r > 0 then .pinf else if r < 0 then .ninf else .nan
  | .ninf, .fin r => if r > 0 then .ninf else if r < 0 then .pinf else .nan
  | .pinf, .pinf => .pinf
  | .ninf, .ninf => .pinf
  | .pinf, .ninf => .ninf
  | .ninf, .pinf => .ninf
  | _, _ => .nan

/-- IEEE division (exact on finite arguments; division by the single
modelled zero follows the positive-zero rules: `q/0` is a signed infinity
for `q ≠ 0` and NaN for `0/0`). -/
def FP.div : FP → FP → FP
  | .fin q, .fin r =>
      if r ≠ 0 then .fin (q / r)
      else if q > 0 then .pinf
      else if q < 0 then .ninf
      else .nan
  | .fin _, .pinf => .fin 0
  | .fin _, .ninf => .fin 0
  | .pinf, .fin r => if r < 0 then .ninf else .pinf
  | .ninf, .fin r => if r < 0 then .pinf else .ninf
  | _, _ => .nan

/-- Largest `k` with `k * k ≤ n` (a structurally recursive `Nat.sqrt`,
kept kernel-reducible for the concrete evaluations below). -/
def natSqrtL (n : ℕ) : ℕ :=
  (List.range (n + 1)).foldl (fun a k => if k * k ≤ n then k else a) 0

/-- Exact rational square root: `some r` when the (nonnegative) argument is
the square of a rational, `none` otherwise. -/
def ratSqrt (q : ℚ) : Option ℚ :=
  if q < 0 then none
  else
    let sn := natSqrtL q.num.toNat
    let sd := natSqrtL q.den
    if sn * sn = q.num.toNat ∧ sd * sd = q.den then some (mkRat (sn : ℤ) sd)
    else none

/-- IEEE square root.  Model note: `math.Sqrt` of a positive rational whose
root is irrational is not representable in the exact-rational model and is
mapped to NaN; no theorem below evaluates the function on such an input. -/
def FP.sqrt : FP → FP
  | .fin q =>
      if q < 0 then .nan
      else
        match ratSqrt q with
        | some r => .fin r
        | none => .nan
  | .pinf => .pinf
  | .ninf => .nan
  | .nan => .nan

/-- The rational carried by a finite value (0 for the special values);
used when handing buffers to the exact-rational linear-algebra model,
whose contract covers finite data only. -/
def FP.toQ : FP → ℚ
  | .fin q => q
  | _ => 0

/-- Finiteness predicate. -/
def FP.isFinite : FP → Bool
  | .fin _ => true
  | _ => false

/-- Negativity: a finite negative rational or negative infinity. -/
def FP.isNeg : FP → Bool
  | .fin q => q < 0
  | .ninf => true
  | _ => false

/-- Decidable equality for `Except`, used to evaluate compilation results
on concrete inputs. -/
instance {ε α : Type} [DecidableEq ε] [DecidableEq α] : DecidableEq (Except ε α) :=
  fun x y =>
    match x, y with
    | .ok a, .ok b =>
        match decEq a b with
        | isTrue h => isTrue (h ▸ rfl)
        | isFalse h => isFalse (fun hh => h (Except.ok.inj hh))
    | .error a, .error b =>
        match decEq a b with
        | isTrue h => isTrue (h ▸ rfl)
        | isFalse h => isFalse (fun hh => h (Except.error.inj hh))
    | .ok _, .error _ => isFalse (fun hh => Except.noConfusion hh)
    | .error _, .ok _ => isFalse (fun hh => Except.noConfusion hh)

/-! ## Go numeric literal parsing (strconv.ParseFloat model)

`strconv.ParseFloat` is Go standard-library code; it is modelled here
exactly on decimal mantissa/exponent syntax (Go additionally accepts hex
floats, underscores and Inf/NaN spellings, none of which occur in the
program's inputs of interest).  The result is the exact rational value;
rounding to float64 is not modelled. -/

/-- Value and digit count of a (possibly empty) string of decimal digits;
`none` if a non-digit occurs. -/
def digitsVal : List Char → Option (ℕ × ℕ)
  | [] => some (0, 0)
  | c :: cs =>
      if c.isDigit then
        match digitsVal cs with
        | some (v, n) => some ((c.toNat - 48) * 10 ^ n + v, n + 1)
        | none => none
      else none

/-- Parse an optional exponent suffix (the part after `e`/`E`). -/
def expVal (cs : List Char) : Option ℤ :=
  match cs with
  | [] => none
  | '+' :: ds =>
      match digitsVal ds with
      | some (v, n) => if n = 0 then none else some (v : ℤ)
      | none => none
  | '-' :: ds =>
      match digitsVal ds with
      | some (v, n) => if n = 0 then none else some (-(v : ℤ))
      | none => none
  | ds =>
      match digitsVal ds with
      | some (v, n) => if n = 0 then none else some (v : ℤ)
      | none => none

/-- Parse an unsigned decimal mantissa `digits[.digits]` into a rational. -/
def mantVal (cs : List Char) : Option ℚ :=
  let ip := cs.takeWhile Char.isDigit
  let rest := cs.dropWhile Char.isDigit
  match digitsVal ip with
  | none => none
  | some (iv, ilen) =>
      match rest with
      | [] => if ilen = 0 then none else some (iv : ℚ)
      | '.' :: fr =>
          match digitsVal fr with
          | some (fv, flen) =>
              if ilen = 0 ∧ flen = 0 then none
              else some ((iv : ℚ) + (fv : ℚ) / (10 : ℚ) ^ flen)
          | none => none
      | _ => none

/-- Model of Go's `strconv.ParseFloat` on decimal syntax (exact value). -/
def goParseFloat (s : String) : Option ℚ :=
  let cs := s.data
  let signAndRest : Bool × List Char :=
    match cs with
    | '+' :: r => (false, r)
    | '-' :: r => (true, r)
    | r => (false, r)
  let body := signAndRest.2
  let mant := body.takeWhile (fun c => !(c = 'e' || c = 'E'))
  let rest := body.dropWhile (fun c => !(c = 'e' || c = 'E'))
  let mv? := mantVal mant
  let ev? : Option ℤ :=
    match rest with
    | [] => some 0
    | _ :: r => expVal r
  match mv?, ev? with
  | some mv, some ev =>
      let v := mv * (10 : ℚ) ^ ev
      some (if signAndRest.1 then -v else v)
  | _, _ => none

/-! ## The expression compiler (src/parse.go)

The compiler walks a Go abstract syntax tree and emits a reverse-polish
sequence of instructions.  The AST type below mirrors the `go/ast` node
kinds that `evaluation.Visit` inspects; producing the AST from a string is
`go/parser` (external), modelled further below. -/

/-- Binary AST operators: the four that `Visit` recognizes, plus a
representative for every other Go binary operator (carrying its printed
form, used in the error message). -/
inductive GoBinOp where
  | addT
  | subT
  | mulT
  | quoT
  | otherB (s : String)

/-- Unary AST operators: `+` and `-`, plus a representative for every other
Go unary operator. -/
inductive GoUnOp where
  | plusT
  | minusT
  | otherU (s : String)

/-- Subset of `go/ast` expression nodes relevant to `evaluation.Visit`.
A node kind outside this grammar that `Visit` does not inspect directly is
traversed child-wise by `ast.Walk` (here: `paren`, `selector`). -/
inductive Expr where
  | lit (s : String)
  | idt (s : String)
  | paren (x : Expr)
  | selector (x : Expr) (sel : String)
  | call (fn : Expr) (args : List Expr)
  | una (op : GoUnOp) (x : Expr)
  | bin (op : GoBinOp) (x : Expr) (y : Expr)

/-- RPN instructions: operands (`float64Literal`, `ident`) and operators
(`uplus`, `uminus`, `add`, `sub`, `mul`, `quo`, `unaryFunc`, `binaryFunc`)
of src/parse.go. -/
inductive Instr where
  | lit (s : String) (v : ℚ)
  | varRef (s : String)
  | uplus
  | uminus
  | addI
  | subI
  | mulI
  | quoI
  | una (name : String)
  | bin (name : String)
deriving DecidableEq

/-- The `String()` form of an instruction (the RPN token printed by the
operand/operator `String` methods in src/parse.go). -/
def Instr.str : Instr → String
  | .lit s _ => s
  | .varRef s => s
  | .uplus => "u+"
  | .uminus => "u-"
  | .addI => "+"
  | .subI => "-"
  | .mulI => "*"
  | .quoI => "/"
  | .una n => "math." ++ n
  | .bin n => "math." ++ n

/-- Keys of the `unaryFuncs` whitelist in src/parse.go. -/
def unaryNames : List String :=
  ["Abs", "Acos", "Acosh", "Asin", "Asinh", "Atan", "Atanh", "Cbrt",
   "Ceil", "Cos", "Cosh", "Erf", "Erfc", "Exp", "Exp2", "Expm1", "Floor",
   "Gamma", "J0", "J1", "Log", "Log10", "Log1p", "Log2", "Logb", "Sin",
   "Sinh", "Sqrt", "Tan", "Tanh", "Trunc", "Y0", "Y1"]

/-- Keys of the `binaryFuncs` whitelist in src/parse.go. -/
def binaryNames : List String :=
  ["Atan2", "Copysign", "Dim", "Hypot", "Max", "Min", "Mod", "Nextafter",
   "Pow", "Remainder"]

/-- Truncation toward zero (Go's `math.Trunc` on finite values). -/
def ratTrunc (q : ℚ) : ℚ := if 0 ≤ q then (⌊q⌋ : ℚ) else (⌈q⌉ : ℚ)

/-- Interpretation of the whitelisted unary math functions.  These are Go
standard-library code: the ones with exact rational meaning are modelled
exactly; the transcendental ones (whose values are irrational almost
everywhere) are outside the exact model and mapped to NaN — no theorem
below evaluates them. -/
def unaryInterp (name : String) : FP → FP :=
  match name with
  | "Abs" => fun x =>
      match x with
      | .fin q => .fin |q|
      | .pinf => .pinf
      | .ninf => .pinf
      | .nan => .nan
  | "Sqrt" => FP.sqrt
  | "Ceil" => fun x => match x with | .fin q => .fin (⌈q⌉ : ℚ) | y => y
  | "Floor" => fun x => match x with | .fin q => .fin (⌊q⌋ : ℚ) | y => y
  | "Trunc" => fun x => match x with | .fin q => .fin (ratTrunc q) | y => y
  | _ => fun _ => FP.nan

/-- Interpretation of the whitelisted binary math functions (same modelling
policy as `unaryInterp`; `Hypot` is `sqrt(x² + y²)`, exact whenever the
root is rational — Go's special cases for infinite/NaN mixes are not
claim-relevant). -/
def binaryInterp (name : String) : FP → FP → FP :=
  match name with
  | "Hypot" => fun x y => FP.sqrt ((x.mul x).add (y.mul y))
  | "Max" => fun x y =>
      match x, y with
      | .fin a, .fin b => .fin (max a b)
      | .pinf, .fin _ => .pinf
      | .fin _, .pinf => .pinf
      | .ninf, .fin b => .fin b
      | .fin a, .ninf => .fin a
      | .pinf, .pinf => .pinf
      | .ninf, .ninf => .ninf
      | .pinf, .ninf => .pinf
      | .ninf, .pinf => .pinf
      | _, _ => .nan
  | "Min" => fun x y =>
      match x, y with
      | .fin a, .fin b => .fin (min a b)
      | .pinf, .fin b => .fin b
      | .fin a, .pinf => .fin a
      | .ninf, .fin _ => .ninf
      | .fin _, .ninf => .ninf
      | .pinf, .pinf => .pinf
      | .ninf, .ninf => .ninf
      | .pinf, .ninf => .ninf
      | .ninf, .pinf => .ninf
      | _, _ => .nan
  | "Dim" => fun x y =>
      match x, y with
      | .fin a, .fin b => .fin (max (a - b) 0)
      | _, _ => .nan
  | _ => fun _ _ => FP.nan

/-- Compiler state: mirrors the `evaluation` struct of src/parse.go
(`output` and `parseError`; the `knownVars` field is set once at
construction and never written, so it is carried as the `names` parameter
of `visit`; the source-string field is not needed by any property). -/
structure EvalState where
  output : List Instr
  parseError : Option String

mutual

/-- One step of `ast.Walk` with `evaluation.Visit` (src/parse.go:284-369).
The entry guard mirrors `if node == nil || e.parseError != nil`; the
`call`, `una` and `bin` cases walk their children themselves and return
`nil` exactly as the source does, so children are walked once. -/
def visit (names : List String) (st : EvalState) (e : Expr) : EvalState :=
  if st.parseError.isSome then st
  else
    match e with
    | .lit s =>
        match goParseFloat s with
        | some v => { st with output := st.output ++ [.lit s v] }
        | none => { st with parseError := some ("invalid literal: " ++ s) }
    | .idt s =>
        if s ∈ names then { st with output := st.output ++ [.varRef s] }
        else { st with parseError := some ("unknown variable: " ++ s) }
    | .paren x => visit names st x
    | .selector x sel =>
        -- ast.Walk on a bare SelectorExpr walks X and then Sel; Sel is an
        -- Ident node, whose Visit case is inlined here.
        let st1 := visit names st x
        if st1.parseError.isSome then st1
        else if sel ∈ names then { st1 with output := st1.output ++ [.varRef sel] }
        else { st1 with parseError := some ("unknown variable: " ++ sel) }
    | .call fn args =>
        match fn with
        | .selector (.idt pkg) sel =>
            if pkg ≠ "math" then
              let msg := "only math package functions allowed, found package " ++ pkg
              { st with parseError := some msg }
            else
              let st1 := visitList names st args
              if sel ∈ unaryNames then { st1 with output := st1.output ++ [.una sel] }
              else if sel ∈ binaryNames then { st1 with output := st1.output ++ [.bin sel] }
              else { st1 with parseError := some ("unknown math function math." ++ sel) }
        | _ => { st with parseError := some "unknown function call" }
    | .una op x =>
        let st1 := visit names st x
        match op with
        | .plusT => { st1 with output := st1.output ++ [.uplus] }
        | .minusT => { st1 with output := st1.output ++ [.uminus] }
        | .otherU s => { st1 with parseError := some ("unrecognized unary expression: " ++ s) }
    | .bin op x y =>
        let st1 := visit names (visit names st x) y
        match op with
        | .addT => { st1 with output := st1.output ++ [.addI] }
        | .subT => { st1 with output := st1.output ++ [.subI] }
        | .mulT => { st1 with output := st1.output ++ [.mulI] }
        | .quoT => { st1 with output := st1.output ++ [.quoI] }
        | .otherB s => { st1 with parseError := some ("unrecognized binary expression: " ++ s) }

/-- Walking a call's argument list in order (`for _, a := range t.Args`). -/
def visitList (names : List String) (st : EvalState) : List Expr → EvalState
  | [] => st
  | a :: as => visitList names (visit names st a) as

end

/-- `newEvaluation` (src/parse.go:269-280): walk the AST and return the RPN
program, or the recorded compile error. -/
def newEvaluation (e : Expr) (names : List String) : Except String (List Instr) :=
  let st := visit names { output := [], parseError := none } e
  match st.parseError with
  | some msg => .error msg
  | none => .ok st.output

/-- Binding lookup, `vars[string(e)]` of `ident.value`: a Go map read
returns the float64 zero value `0` when the key is absent. -/
def lookupFP (vars : List (String × FP)) (s : String) : FP :=
  match vars.find? (fun p => p.1 = s) with
  | some p => p.2
  | none => .fin 0

/-- One RPN execution step (the `value`/`eval` methods of the operand and
operator types in src/parse.go).  The stack grows at its head here.
Stack underflow is a Go slice-index panic in the source and is unreachable
for compiled programs; it is modelled as leaving the stack unchanged. -/
def evalInstr (vars : List (String × FP)) (stack : List FP) (i : Instr) : List FP :=
  match i with
  | .lit _ v => FP.fin v :: stack
  | .varRef s => lookupFP vars s :: stack
  | .uplus => stack
  | .uminus => match stack with | a :: t => a.neg :: t | [] => []
  | .addI => match stack with | a :: b :: t => b.add a :: t | s => s
  | .subI => match stack with | a :: b :: t => b.sub a :: t | s => s
  | .mulI => match stack with | a :: b :: t => b.mul a :: t | s => s
  | .quoI => match stack with | a :: b :: t => b.div a :: t | s => s
  | .una n => match stack with | a :: t => unaryInterp n a :: t | [] => []
  | .bin n => match stack with | a :: b :: t => binaryInterp n b a :: t | s => s

/-- `evaluation.value` (src/parse.go:244-268): run the RPN program; the two
`log.Fatal` exits (empty program, final stack depth different from one) are
modelled as `none`. -/
def value (output : List Instr) (vars : List (String × FP)) : Option FP :=
  if output.isEmpty then none
  else
    match output.foldl (evalInstr vars) [] with
    | [v] => some v
    | _ => none

/-! ## String to AST (go/parser model)

Modelled from the spec: `parser.ParseExprFrom` of the Go standard library
is external to the repository.  The spec (§4.1) fixes the accepted grammar:
float literals, identifiers, `+ - * /` with conventional precedence and
left associativity, unary sign, parenthesization, and qualified calls
`pkg.Fun(arg[, arg])`.  The recursive-descent parser below implements that
grammar with Go's precedence (selector/call bind tightest, then unary sign,
then `* /`, then `+ -`). -/

/-- Lexical tokens of the restricted expression language. -/
inductive Tok where
  | num (s : String)
  | name (s : String)
  | plusT
  | minusT
  | starT
  | slashT
  | lparen
  | rparen
  | comma
  | dotT
deriving DecidableEq

/-- Is this character allowed to start an identifier? -/
def isIdentStart (c : Char) : Bool := c.isAlpha || c = '_'

/-- Is this character allowed inside an identifier? -/
def isIdentChar (c : Char) : Bool := c.isAlphanum || c = '_'

/-- Scan a numeric literal: digits, optional fraction, optional exponent.
Returns the raw literal text and the remaining input. -/
def scanNum (cs : List Char) : Option (List Char × List Char) :=
  let ip := cs.takeWhile Char.isDigit
  let r1 := cs.dropWhile Char.isDigit
  let withFrac : List Char × List Char :=
    match r1 with
    | '.' :: r2 =>
        let fr := r2.takeWhile Char.isDigit
        (ip ++ '.' :: fr, r2.dropWhile Char.isDigit)
    | _ => (ip, r1)
  let mant := withFrac.1
  let r3 := withFrac.2
  match r3 with
  | 'e' :: r4 =>
      match r4 with
      | '+' :: r5 =>
          let ds := r5.takeWhile Char.isDigit
          if ds.isEmpty then none
          else some (mant ++ 'e' :: '+' :: ds, r5.dropWhile Char.isDigit)
      | '-' :: r5 =>
          let ds := r5.takeWhile Char.isDigit
          if ds.isEmpty then none
          else some (mant ++ 'e' :: '-' :: ds, r5.dropWhile Char.isDigit)
      | _ =>
          let ds := r4.takeWhile Char.isDigit
          if ds.isEmpty then none
          else some (mant ++ 'e' :: ds, r4.dropWhile Char.isDigit)
  | 'E' :: r4 =>
      match r4 with
      | '+' :: r5 =>
          let ds := r5.takeWhile Char.isDigit
          if ds.isEmpty then none
          else some (mant ++ 'E' :: '+' :: ds, r5.dropWhile Char.isDigit)
      | '-' :: r5 =>
          let ds := r5.takeWhile Char.isDigit
          if ds.isEmpty then none
          else some (mant ++ 'E' :: '-' :: ds, r5.dropWhile Char.isDigit)
      | _ =>
          let ds := r4.takeWhile Char.isDigit
          if ds.isEmpty then none
          else some (mant ++ 'E' :: ds, r4.dropWhile Char.isDigit)
  | _ => some (mant, r3)

/-- Tokenizer (fuel-based recursion over the character list). -/
def tokenizeAux : ℕ → List Char → Option (List Tok)
  | 0, _ => none
  | _ + 1, [] => some []
  | n + 1, c :: cs =>
      if c = ' ' || c = '\t' then tokenizeAux n cs
      else if c = '+' then (tokenizeAux n cs).map (Tok.plusT :: ·)
      else if c = '-' then (tokenizeAux n cs).map (Tok.minusT :: ·)
      else if c = '*' then (tokenizeAux n cs).map (Tok.starT :: ·)
      else if c = '/' then (tokenizeAux n cs).map (Tok.slashT :: ·)
      else if c = '(' then (tokenizeAux n cs).map (Tok.lparen :: ·)
      else if c = ')' then (tokenizeAux n cs).map (Tok.rparen :: ·)
      else if c = ',' then (tokenizeAux n cs).map (Tok.comma :: ·)
      else if c.isDigit then
        match scanNum (c :: cs) with
        | some (txt, rest) => (tokenizeAux n rest).map (Tok.num ⟨txt⟩ :: ·)
        | none => none
      else if c = '.' then
        match cs with
        | d :: _ =>
            if d.isDigit then
              match scanNum (c :: cs) with
              | some (txt, rest) => (tokenizeAux n rest).map (Tok.num ⟨txt⟩ :: ·)
              | none => none
            else (tokenizeAux n cs).map (Tok.dotT :: ·)
        | [] => (tokenizeAux n cs).map (Tok.dotT :: ·)
      else if isIdentStart c then
        let idtxt := c :: cs.takeWhile isIdentChar
        (tokenizeAux n (cs.dropWhile isIdentChar)).map (Tok.name ⟨idtxt⟩ :: ·)
      else none

/-- Tokenize a whole string. -/
def tokenize (s : String) : Option (List Tok) :=
  tokenizeAux (s.data.length + 1) s.data

mutual

/-- Primary expressions: literal, identifier, parenthesized expression. -/
def parsePrimary : ℕ → List Tok → Option (Expr × List Tok)
  | 0, _ => none
  | n + 1, ts =>
      match ts with
      | .num s :: r => parsePostfix n (.lit s) r
      | .name s :: r => parsePostfix n (.idt s) r
      | .lparen :: r =>
          match parseAdd n r with
          | some (x, .rparen :: r2) => parsePostfix n (.paren x) r2
          | _ => none
      | _ => none

/-- Postfix chain: selectors `.name` and call argument lists. -/
def parsePostfix : ℕ → Expr → List Tok → Option (Expr × List Tok)
  | 0, _, _ => none
  | n + 1, x, ts =>
      match ts with
      | .dotT :: .name s :: r => parsePostfix n (.selector x s) r
      | .lparen :: .rparen :: r => parsePostfix n (.call x []) r
      | .lparen :: r =>
          match parseAdd n r with
          | some (a, r2) =>
              match parseArgs n [a] r2 with
              | some (args, r3) => parsePostfix n (.call x args) r3
              | none => none
          | none => none
      | _ => some (x, ts)

/-- Remaining call arguments after the first: `, expr ... )`. -/
def parseArgs : ℕ → List Expr → List Tok → Option (List Expr × List Tok)
  | 0, _, _ => none
  | n + 1, acc, ts =>
      match ts with
      | .rparen :: r => some (acc, r)
      | .comma :: r =>
          match parseAdd n r with
          | some (a, r2) => parseArgs n (acc ++ [a]) r2
          | none => none
      | _ => none

/-- Unary level: `+`/`-` bind tighter than the binary operators. -/
def parseUnary : ℕ → List Tok → Option (Expr × List Tok)
  | 0, _ => none
  | n + 1, ts =>
      match ts with
      | .plusT :: r =>
          match parseUnary n r with
          | some (x, r2) => some (.una .plusT x, r2)
          | none => none
      | .minusT :: r =>
          match parseUnary n r with
          | some (x, r2) => some (.una .minusT x, r2)
          | none => none
      | _ => parsePrimary n ts

/-- Multiplicative level: left-associative `*` and `/`. -/
def parseMul : ℕ → List Tok → Option (Expr × List Tok)
  | 0, _ => none
  | n + 1, ts =>
      match parseUnary n ts with
      | some (x, r) => parseMulLoop n x r
      | none => none

/-- Loop for the multiplicative level. -/
def parseMulLoop : ℕ → Expr → List Tok → Option (Expr × List Tok)
  | 0, _, _ => none
  | n + 1, x, ts =>
      match ts with
      | .starT :: r =>
          match parseUnary n r with
          | some (y, r2) => parseMulLoop n (.bin .mulT x y) r2
          | none => none
      | .slashT :: r =>
          match parseUnary n r with
          | some (y, r2) => parseMulLoop n (.bin .quoT x y) r2
          | none => none
      | _ => some (x, ts)

/-- Additive level: left-associative `+` and `-`. -/
def parseAdd : ℕ → List Tok → Option (Expr × List Tok)
  | 0, _ => none
  | n + 1, ts =>
      match parseMul n ts with
      | some (x, r) => parseAddLoop n x r
      | none => none

/-- Loop for the additive level. -/
def parseAddLoop : ℕ → Expr → List Tok → Option (Expr × List Tok)
  | 0, _, _ => none
  | n + 1, x, ts =>
      match ts with
      | .plusT :: r =>
          match parseMul n r with
          | some (y, r2) => parseAddLoop n (.bin .addT x y) r2
          | none => none
      | .minusT :: r =>
          match parseMul n r with
          | some (y, r2) => parseAddLoop n (.bin .subT x y) r2
          | none => none
      | _ => some (x, ts)

end

/-- Parse one whole expression string (`parser.ParseExprFrom` model):
the expression must consume every token. -/
def parseExprStr (s : String) : Option Expr :=
  match tokenize s with
  | none => none
  | some ts =>
      match parseAdd (ts.length * 2 + 4) ts with
      | some (e, []) => some e
      | _ => none

/-- Parse a top-level comma-separated expression list (the elements of the
`float64{ ... }` composite literal that `parseX` builds; Go permits a
trailing comma in a composite literal). -/
def parseListAux : ℕ → List Tok → Option (List Expr)
  | 0, _ => none
  | n + 1, ts =>
      match parseAdd (ts.length * 2 + 4) ts with
      | some (e, []) => some [e]
      | some (e, .comma :: []) => some [e]
      | some (e, .comma :: r) =>
          match parseListAux n r with
          | some es => some (e :: es)
          | none => none
      | _ => none

/-- Parse the explanatory-list string into one AST per element. -/
def parseXList (s : String) : Option (List Expr) :=
  match tokenize s with
  | none => none
  | some ts => parseListAux (ts.length + 1) ts

/-- `parseX` (src/parse.go:81-101): split the comma-delimited explanatory
transformations and compile each one; the first failure aborts. -/
def parseXStr (names : List String) (s : String) : Except String (List (List Instr)) :=
  match parseXList s with
  | none => .error "syntax error"
  | some es =>
      es.foldl
        (fun acc e =>
          match acc with
          | .error m => .error m
          | .ok ps =>
              match newEvaluation e names with
              | .ok p => .ok (ps ++ [p])
              | .error m => .error m)
        (.ok [])

/-- `parseY` (src/parse.go:103-105): compile the response transform. -/
def parseYStr (names : List String) (s : String) : Except String (List Instr) :=
  match parseExprStr s with
  | none => .error "syntax error"
  | some e => newEvaluation e names

/-! ## Sample aggregation (src/fit.go: sampleGroup) -/

/-- A per-group sample (`samp` in src/fit.go): a flat row-major explanatory
buffer and a response buffer. -/
structure Samp where
  x : List FP
  y : List FP
deriving DecidableEq

/-- The fields of `parse.Benchmark` that can serve as the response
(golang.org/x/tools/benchmark/parse, external; uint64 fields as naturals). -/
structure Bench where
  nsPerOp : FP
  allocedBytesPerOp : ℕ
  allocsPerOp : ℕ
  mbPerS : FP

/-- The response selector: `main` validates the `-response` flag against
`validYs` before `sampleGroup` runs, so the selector is one of these four
(the `panic` default of the `switch` in `sampleGroup` is unreachable). -/
inductive YVar where
  | nsPerOp
  | allocedBytesPerOp
  | allocsPerOp
  | mbPerS

/-- `vars["Y"] = ...` selection in the inner loop of `sampleGroup`
(the uint64 fields undergo Go's exact uint64-to-float64 conversion,
exact in this model for all naturals below 2^53, which covers every
claim-relevant value). -/
def yField (yVar : YVar) (b : Bench) : FP :=
  match yVar with
  | .nsPerOp => b.nsPerOp
  | .allocedBytesPerOp => .fin (b.allocedBytesPerOp : ℚ)
  | .allocsPerOp => .fin (b.allocsPerOp : ℚ)
  | .mbPerS => b.mbPerS

/-- Go map assignment `m[k] = v` on an association-list model. -/
def setKey {α : Type} : List (String × α) → String → α → List (String × α)
  | [], k, v => [(k, v)]
  | p :: t, k, v => if p.1 = k then (k, v) :: t else p :: setKey t k v

/-- Go map read with a default (the zero value). -/
def lookupD {α : Type} (l : List (String × α)) (k : String) (d : α) : α :=
  match l.find? (fun p => p.1 = k) with
  | some p => p.2
  | none => d

/-- Model of Go's `strings.TrimRight(s, cutset)`: remove the longest run of
trailing code points each of which occurs anywhere in `cutset`. -/
def trimRight (s cutset : String) : String :=
  ⟨(s.data.reverse.dropWhile (fun c => c ∈ cutset.data)).reverse⟩

/-- `groupName := strings.TrimRight(name, input[0])` (src/fit.go:39). -/
def groupNameOf (name matched : String) : String := trimRight name matched

/-- `parsefloat.Expression.Eval` (external package extracted from the
in-repo evaluator): a total float64 function.  Its `log.Fatal` path occurs
only for malformed programs, which compiled programs never are; that
unreachable path is modelled by the default value. -/
def evalE (p : List Instr) (vars : List (String × FP)) : FP :=
  (value p vars).getD (.fin 0)

/-- The capture-to-binding loop of `sampleGroup` (src/fit.go:42-53): each
captured substring is parsed with `strconv.ParseFloat`; the first failure
skips the whole benchmark name (`continue Bench`). -/
def parseVarsAux (acc : List (String × FP)) :
    List (String × String) → Option (List (String × FP))
  | [] => some acc
  | (nm, sv) :: rest =>
      match goParseFloat sv with
      | some v => parseVarsAux (setKey acc nm (.fin v)) rest
      | none => none

/-- Build the variable binding from the named captures, or `none` when a
captured substring is not numeric. -/
def parseVars (caps : List (String × String)) : Option (List (String × FP)) :=
  parseVarsAux [] caps

/-- One iteration of the `Bench:` loop of `sampleGroup` (src/fit.go:32-83).
`matchFn` stands for the external regexp: for a benchmark name it yields
`none` (no match) or the full matched substring `input[0]` together with
the (capture-group name, captured substring) pairs. -/
def stepBench (matchFn : String → Option (String × List (String × String)))
    (xExprs : List (List Instr)) (yExpr : List Instr) (yVar : YVar)
    (samps : List (String × Samp)) (entry : String × List Bench) :
    List (String × Samp) :=
  match matchFn entry.1 with
  | none => samps
  | some (full, caps) =>
      let groupName := groupNameOf entry.1 full
      match parseVars caps with
      | none => samps
      | some vars =>
          let xvals := xExprs.map (fun p => evalE p vars)
          let s0 := lookupD samps groupName ⟨[], []⟩
          let s1 := entry.2.foldl
            (fun s b =>
              let vars2 := setKey vars "Y" (yField yVar b)
              let yv := evalE yExpr vars2
              ⟨s.x ++ xvals, s.y ++ [yv]⟩)
            s0
          setKey samps groupName s1

/-- `sampleGroup` (src/fit.go:29-85).  The benchmark set is given as a list
of (name, benchmark records) pairs; Go iterates its map in unspecified
order, and the result is modelled as an association list — the properties
below are insensitive to the order. -/
def sampleGroup (benchSet : List (String × List Bench))
    (matchFn : String → Option (String × List (String × String)))
    (xExprs : List (List Instr)) (yExpr : List Instr) (yVar : YVar) :
    List (String × Samp) :=
  benchSet.foldl (stepBench matchFn xExprs yExpr yVar) []

/-! ## Exact linear algebra on list matrices

`lapack64.Gels` and `mat64` are external numerical libraries; the spec
(§4.3, §4.4) describes their contracts in real-number terms, modelled here
with exact rational arithmetic on row-major list matrices. -/

/-- Remove the element at an index. -/
def dropIdx {α : Type} : List α → ℕ → List α
  | [], _ => []
  | _ :: t, 0 => t
  | h :: t, n + 1 => h :: dropIdx t n

/-- Replace the element at an index (no-op when out of range). -/
def setIdx {α : Type} : List α → ℕ → α → List α
  | [], _, _ => []
  | _ :: t, 0, v => v :: t
  | h :: t, n + 1, v => h :: setIdx t n v

/-- Matrix entry with the usual zero default. -/
def entry (g : List (List ℚ)) (i j : ℕ) : ℚ := (g.getD i []).getD j 0

/-- Determinant by Laplace expansion along the first row, with an explicit
size argument to keep the recursion structural. -/
def detN : ℕ → List (List ℚ) → ℚ
  | 0, _ => 1
  | n + 1, rows =>
      match rows with
      | [] => 1
      | r :: rest =>
          (List.range r.length).foldl
            (fun a j =>
              a + (-1 : ℚ) ^ j * r.getD j 0 * detN n (rest.map (fun row => dropIdx row j)))
            0

/-- Determinant of a square list matrix. -/
def detL (g : List (List ℚ)) : ℚ := detN g.length g

/-- Delete row `i` and column `j`. -/
def minorAt (g : List (List ℚ)) (i j : ℕ) : List (List ℚ) :=
  (dropIdx g i).map (fun row => dropIdx row j)

/-- The Gram matrix `XᵀX` of the row-major design matrix. -/
def gramOf (xq : List ℚ) (rows w : ℕ) : List (List ℚ) :=
  (List.range w).map (fun i =>
    (List.range w).map (fun j =>
      (List.range rows).foldl
        (fun a k => a + xq.getD (k * w + i) 0 * xq.getD (k * w + j) 0) 0))

/-- `Xᵀy` of the row-major design matrix and response vector. -/
def xtyOf (xq yq : List ℚ) (rows w : ℕ) : List ℚ :=
  (List.range w).map (fun i =>
    (List.range rows).foldl
      (fun a k => a + xq.getD (k * w + i) 0 * yq.getD k 0) 0)

/-- Replace column `j` of `g` by the vector `b`. -/
def replaceCol (g : List (List ℚ)) (j : ℕ) (b : List ℚ) : List (List ℚ) :=
  g.enum.map (fun ir => setIdx ir.2 j (b.getD ir.1 0))

/-- Modelled from the spec: `lapack64.Gels` is external (gonum).  Per §4.3
the solver must return the least-squares solution for a full-column-rank
design matrix with `rows ≥ width` and report failure on a matrix that is
rank deficient.  For full column rank the minimizer is the solution of the
normal equations `XᵀX β = Xᵀy`, here by Cramer's rule; rank deficiency
(for `rows ≥ width`: a singular Gram matrix) yields `none`. -/
def gels (xq yq : List ℚ) (rows w : ℕ) : Option (List ℚ) :=
  let g := gramOf xq rows w
  if detL g = 0 then none
  else
    let b := xtyOf xq yq rows w
    some ((List.range w).map (fun j => detL (replaceCol g j b) / detL g))

/-- `estimate` (src/fit.go:91-119): build the design matrix and response
vector from the sample buffers and run the least-squares solver; `nil` on
solver failure, otherwise the first `x.Cols` entries of the solution.
The solver model is exact-rational and therefore applies to samples of
finite values (an infinite or NaN sample value is outside the spec's
real-number contract for the solver). -/
def estimate (s : Samp) : Option (List FP) :=
  if s.x.all FP.isFinite && s.y.all FP.isFinite then
    (gels (s.x.map FP.toQ) (s.y.map FP.toQ) s.y.length (s.x.length / s.y.length)).map
      (fun l => l.map FP.fin)
  else none

/-! ## Fit statistics (src/fit.go: stats) -/

/-- Modelled from the spec: `conf95` is defined in a repository source file
absent from src/ (only its call site, src/fit.go:145, is present).  Per
§4.4 the half-width for a coefficient is `critical_value(df) × se` where
`critical_value(df)` is the two-tailed 95% Student-t critical value with
`df` degrees of freedom.  The t critical values are irrational, so the
computation is parametrized by the critical-value function `tCrit`; every
theorem below holds for an arbitrary `tCrit`. -/
def conf95 (tCrit : ℤ → FP) (se : FP) (df : ℤ) : FP :=
  (tCrit df).mul se

/-- Row `i` of the sample's design matrix: `s.x[i*stride : (i+1)*stride]`. -/
def sampRow (s : Samp) (stride i : ℕ) : List FP :=
  (s.x.drop (i * stride)).take stride

/-- The inner loop of `stats`: `yHat += m[j] * x` over one row.  The Go
index expression `m[j]` panics when `j ≥ len(m)`; that out-of-contract case
is modelled by the zero default (the theorems below assume a fitted model,
whose length equals the stride). -/
def yHatOf (m : List FP) (row : List FP) : FP :=
  row.enum.foldl (fun acc jx => acc.add ((m.getD jx.1 (.fin 0)).mul jx.2)) (.fin 0)

/-- `stats` (src/fit.go:122-149).  The loop accumulates
`RSS += (yHat-y)²` and `YSS += y*y`; then `r2 = 1 - RSS/YSS`,
`mse = RSS / float64(rows - stride)`, and the half-widths come from the
diagonal of the inverse Gram matrix.  The call `XTX.Inverse(XTX)` discards
the `mat64` error: on a singular Gram matrix the receiver's contents are
unspecified and the computation continues regardless — that path is
modelled by reading the (unchanged) Gram matrix entries; no theorem
depends on the junk values themselves. -/
def stats (tCrit : ℤ → FP) (m : List FP) (s : Samp) : FP × List FP :=
  let stride := s.x.length / s.y.length
  let acc := s.y.enum.foldl
    (fun (a : FP × FP) iy =>
      let yHat := yHatOf m (sampRow s stride iy.1)
      (a.1.add ((yHat.sub iy.2).mul (yHat.sub iy.2)), a.2.add (iy.2.mul iy.2)))
    (.fin 0, .fin 0)
  let RSS := acc.1
  let YSS := acc.2
  let r2 := (FP.fin 1).sub (RSS.div YSS)
  let df : ℤ := (s.y.length : ℤ) - (stride : ℤ)
  let mse := RSS.div (.fin (df : ℚ))
  let g := gramOf (s.x.map FP.toQ) s.y.length stride
  let dg := detL g
  let invDiag : ℕ → ℚ := fun i =>
    if dg = 0 then entry g i i else detL (minorAt g i i) / dg
  let cint := (List.range stride).map
    (fun i => conf95 tCrit (FP.sqrt ((FP.fin (invDiag i)).mul mse)) df)
  (r2, cint)

/-! ## Configuration (src/main.go: main, lines 127-143) -/

/-- `readNames` (src/main.go:185-191): the set of names produced by
`inre.SubexpNames()` (index 0 is always the empty string, and unnamed
groups also contribute the empty string); membership is what matters. -/
def readNames (subexpNames : List String) : List String := subexpNames

/-- The configuration phase of `main` (src/main.go:127-143): reject a
pattern that names a capture group `Y`, then compile the explanatory list,
then add `Y` to the symbol table and compile the response transform.
`log.Fatal` is modelled as an error result, which aborts the remaining
phase, so no program of a failed configuration is ever produced. -/
def configure (subexpNames : List String) (xt yt : String) :
    Except String (List (List Instr) × List Instr) :=
  let varNames := readNames subexpNames
  if "Y" ∈ varNames then
    .error "`Y` is reserved and cannot be used as a named expression in vars."
  else
    match parseXStr varNames xt with
    | .error e => .error e
    | .ok xs =>
        match parseYStr ("Y" :: varNames) yt with
        | .error e => .error e
        | .ok y => .ok (xs, y)

/-- A concrete stand-in critical-value function, used only to instantiate
`stats` at concrete inputs; none of the proved properties depend on its
values. -/
def tCrit0 : ℤ → FP := fun _ => FP.fin 2

/-- Modelled from the spec (§4.4): the fitted value for row `i` is the dot
product of the model with row `i` of the design matrix,
`ŷᵢ = Σ_{j<width} mⱼ·X[i,j]`. -/
def specYHat (mq xsq : List ℚ) (w i : ℕ) : ℚ :=
  ((List.range w).map (fun j => mq.getD j 0 * xsq.getD (i * w + j) 0)).sum

/-- Modelled from the spec (§4.4): `RSS = Σᵢ (ŷᵢ − yᵢ)²` over all rows. -/
def specRSS (mq xsq ysq : List ℚ) (w : ℕ) : ℚ :=
  ((List.range ysq.length).map
    (fun i => (specYHat mq xsq w i - ysq.getD i 0) ^ 2)).sum

/-- Modelled from the spec (§4.4): the uncentered total sum of squares
`TSS = Σᵢ yᵢ²` (sum of squared responses, not deviations from the mean). -/
def specTSS (ysq : List ℚ) : ℚ := (ysq.map (fun y => y ^ 2)).sum

mutual

/-- The offending terms of claim C7, at the positions the compiler walk
reaches: a bare identifier outside the symbol table (including the field
name of a bare selector, which `ast.Walk` visits as an identifier; call
targets are not walked), a call `math.F(...)` with `F` in neither
whitelist, or a call whose package prefix is not `math`. -/
def offendingTerm (names : List String) : Expr → Bool
  | .lit _ => false
  | .idt s => !(decide (s ∈ names))
  | .paren x => offendingTerm names x
  | .selector x sel => offendingTerm names x || !(decide (sel ∈ names))
  | .call fn args =>
      (match fn with
       | .selector (.idt pkg) sel =>
           if pkg = "math" then !(decide (sel ∈ unaryNames)) && !(decide (sel ∈ binaryNames))
           else true
       | _ => false) ||
      offendingList names args
  | .una _ x => offendingTerm names x
  | .bin _ x y => offendingTerm names x || offendingTerm names y

/-- `offendingTerm` over a call's argument list. -/
def offendingList (names : List String) : List Expr → Bool
  | [] => false
  | a :: as => offendingTerm names a || offendingList names as

end

/-! ## Supporting lemmas -/

theorem FP.add_fin (q r : ℚ) : (FP.fin q).add (FP.fin r) = FP.fin (q + r) := rfl

theorem FP.sub_fin (q r : ℚ) : (FP.fin q).sub (FP.fin r) = FP.fin (q - r) := by
  simp [FP.sub, FP.neg, FP.add, sub_eq_add_neg]

theorem FP.mul_fin (q r : ℚ) : (FP.fin q).mul (FP.fin r) = FP.fin (q * r) := rfl

theorem FP.mul_nan_right (x : FP) : x.mul FP.nan = FP.nan := by
  cases x <;> rfl

theorem FP.mul_not_finite (x y : FP) (hy : y.isFinite = false) :
    (x.mul y).isFinite = false := by
  cases x <;> cases y <;>
    simp_all [FP.mul, FP.isFinite] <;> split_ifs <;> simp [FP.isFinite]

theorem FP.sqrt_not_finite (x : FP) (hx : x.isFinite = false) :
    (FP.sqrt x).isFinite = false := by
  cases x <;> simp_all [FP.sqrt, FP.isFinite]

/-! ## Claim theorems -/

/-- Claim C8: compilation followed by evaluation reproduces the reference
fixtures: the explanatory list `-math.Hypot(M+N, M-N), +M/N` under
M=3.5, N=0.5 yields [-5.0, 7.0]; `1.0 / N` under N=0.0 yields +∞ (IEEE
division by zero); the response `Y / N` under Y=1.0, N=0.0 yields +∞. -/
theorem c8_fixture_evaluation :
    (parseXStr ["", "M", "N"] "-math.Hypot(M+N, M-N), +M/N").map
        (fun ps => ps.map (fun p => value p [("M", FP.fin (mkRat 7 2)), ("N", FP.fin (mkRat 1 2))])) =
      .ok [some (FP.fin (-5)), some (FP.fin 7)] ∧
    (parseXStr ["", "N"] "1.0 / N").map
        (fun ps => ps.map (fun p => value p [("N", FP.fin 0)])) =
      .ok [some FP.pinf] ∧
    (parseYStr ["Y", "", "N"] "Y / N").map
        (fun p => value p [("N", FP.fin 0), ("Y", FP.fin 1)]) =
      .ok (some FP.pinf) :=
  ⟨by decide, by decide, by decide⟩

/-- Claim C6: a variable-name pattern whose capture groups include the
reserved response name `Y` makes the configuration phase fail with the
reserved-name error before any program is compiled (the error result
carries no programs, whatever the transform strings are). -/
theorem c6_reserved_Y_rejected (subexpNames : List String) (xt yt : String)
    (h : "Y" ∈ subexpNames) :
    configure subexpNames xt yt =
      .error "`Y` is reserved and cannot be used as a named expression in vars." := by
  unfold configure readNames
  simp [h]

/-- Witness for C6 at a concrete capture-name list. -/
theorem c6_reserved_Y_rejected_witness :
    configure ["", "Y"] "N, 1.0" "Y" =
      .error "`Y` is reserved and cannot be used as a named expression in vars." :=
  c6_reserved_Y_rejected ["", "Y"] "N, 1.0" "Y" (by decide)

/-- Claim C4 counterexample: the program compiled from the bare variable
reference `N` evaluates under the empty binding (which lacks `N`) to the
normal scalar result 0 — the missing name is silently read as the Go map
zero value, and no unbound-variable fault is reported. -/
theorem c4_counterexample :
    newEvaluation (.idt "N") ["", "N"] = .ok [.varRef "N"] ∧
    value [.varRef "N"] [] = some (FP.fin 0) :=
  ⟨by decide, by decide⟩

/-- Claim C4 (amended): evaluating a variable reference under a binding
that lacks the name returns the map zero value `0` as a normal result;
no unbound-variable evaluation fault exists in the evaluator. -/
theorem c4_amended_missing_binding_yields_zero (vars : List (String × FP)) (x : String)
    (h : vars.find? (fun p => p.1 = x) = none) :
    value [.varRef x] vars = some (FP.fin 0) := by
  simp [value, evalInstr, lookupFP, h, List.foldl]

/-- Witness for the amended C4 at a concrete binding. -/
theorem c4_amended_witness :
    value [.varRef "N"] [("M", FP.fin 3)] = some (FP.fin 0) :=
  c4_amended_missing_binding_yields_zero [("M", FP.fin 3)] "N" (by decide)

theorem visit_guard (names : List String) (st : EvalState) (e : Expr)
    (h : st.parseError.isSome = true) : visit names st e = st := by
  rw [visit.eq_def]
  simp [h]

theorem visitList_guard (names : List String) (l : List Expr) (st : EvalState)
    (h : st.parseError.isSome = true) : visitList names st l = st := by
  induction l generalizing st with
  | nil => simp [visitList]
  | cons a as ih => rw [visitList, visit_guard names st a h, ih st h]

theorem visitList_offending (names : List String) (l : List Expr)
    (IH : ∀ a ∈ l, offendingTerm names a = true → ∀ st : EvalState,
      (visit names st a).parseError.isSome = true)
    (hoff : offendingList names l = true) :
    ∀ st : EvalState, (visitList names st l).parseError.isSome = true := by
  induction l with
  | nil => simp [offendingList] at hoff
  | cons a as ih =>
      intro st
      rw [visitList]
      rw [offendingList] at hoff
      cases ha : offendingTerm names a with
      | true =>
          have h1 := IH a (by simp) ha st
          rw [visitList_guard names as _ h1]
          exact h1
      | false =>
          rw [ha] at hoff
          simp only [Bool.false_or] at hoff
          exact ih (fun b hb hob st2 => IH b (by simp [hb]) hob st2) hoff (visit names st a)

theorem visit_offending_aux (names : List String) :
    ∀ k (e : Expr), sizeOf e < k → offendingTerm names e = true →
      ∀ st : EvalState, (visit names st e).parseError.isSome = true := by
  intro k
  induction k with
  | zero => intro e he; omega
  | succ n ih =>
      intro e he hoff st
      by_cases hst : st.parseError.isSome = true
      · rw [visit_guard names st e hst]; exact hst
      · replace hst : st.parseError.isSome = false := by simpa using hst
        cases e with
        | lit s => rw [offendingTerm] at hoff; exact absurd hoff (by simp)
        | idt s =>
            rw [offendingTerm] at hoff
            simp only [Bool.not_eq_true', decide_eq_false_iff_not] at hoff
            rw [visit.eq_def]
            simp [hst, hoff]
        | paren x =>
            rw [offendingTerm] at hoff
            have hx : sizeOf x < n := by
              have := Expr.paren.sizeOf_spec x
              omega
            rw [visit.eq_def]
            simp only [hst, Bool.false_eq_true, if_false]
            exact ih x hx hoff st
        | selector x sel =>
            rw [offendingTerm] at hoff
            have hx : sizeOf x < n := by
              have := Expr.selector.sizeOf_spec x sel
              omega
            rw [visit.eq_def]
            simp only [hst, Bool.false_eq_true, if_false]
            cases hox : offendingTerm names x with
            | true =>
                have h1 := ih x hx hox st
                simp [h1]
            | false =>
                rw [hox] at hoff
                simp only [Bool.false_or, Bool.not_eq_true', decide_eq_false_iff_not] at hoff
                by_cases h1 : (visit names st x).parseError.isSome = true
                · simp [h1]
                · simp [h1, hoff]
        | call fn args =>
            have hargs : sizeOf args < n := by
              have := Expr.call.sizeOf_spec fn args
              omega
            have hIH : ∀ a ∈ args, offendingTerm names a = true → ∀ st : EvalState,
                (visit names st a).parseError.isSome = true := by
              intro a haa hoa st2
              have : sizeOf a < n := by
                have := List.sizeOf_lt_of_mem haa
                omega
              exact ih a this hoa st2
            rw [visit.eq_def]
            simp only [hst, Bool.false_eq_true, if_false]
            cases fn with
            | selector fx sel =>
                cases fx with
                | idt pkg =>
                    rw [offendingTerm] at hoff
                    by_cases hpkg : pkg = "math"
                    · subst hpkg
                      rw [if_pos rfl] at hoff
                      simp only [ne_eq, not_true_eq_false, if_false]
                      cases hwl : offendingList names args with
                      | true =>
                          have h2 := visitList_offending names args hIH hwl st
                          by_cases hu : sel ∈ unaryNames
                          · simp [hu, h2]
                          · by_cases hb : sel ∈ binaryNames
                            · simp [hu, hb, h2]
                            · simp [hu, hb]
                      | false =>
                          rw [hwl, Bool.or_false] at hoff
                          simp only [Bool.and_eq_true, Bool.not_eq_true',
                            decide_eq_false_iff_not] at hoff
                          simp [hoff.1, hoff.2]
                    · simp [hpkg]
                | lit s => simp
                | paren x => simp
                | selector a b => simp
                | call a b => simp
                | una a b => simp
                | bin a b c => simp
            | lit s => simp
            | idt s => simp
            | paren x => simp
            | call f a => simp
            | una o x => simp
            | bin o x y => simp
        | una op x =>
            rw [offendingTerm] at hoff
            have hx : sizeOf x < n := by
              have := Expr.una.sizeOf_spec op x
              omega
            rw [visit.eq_def]
            simp only [hst, Bool.false_eq_true, if_false]
            have h1 := ih x hx hoff st
            cases op with
            | plusT => simp [h1]
            | minusT => simp [h1]
            | otherU s => simp
        | bin op x y =>
            rw [offendingTerm] at hoff
            have hx : sizeOf x < n := by
              have := Expr.bin.sizeOf_spec op x y
              omega
            have hy : sizeOf y < n := by
              have := Expr.bin.sizeOf_spec op x y
              omega
            rw [visit.eq_def]
            simp only [hst, Bool.false_eq_true, if_false]
            have h2 : (visit names (visit names st x) y).parseError.isSome = true := by
              cases hox : offendingTerm names x with
              | true =>
                  have h1 := ih x hx hox st
                  rw [visit_guard names _ y h1]
                  exact h1
              | false =>
                  rw [hox] at hoff
                  simp only [Bool.false_or] at hoff
                  exact ih y hy hoff (visit names st x)
            cases op with
            | addT => simp [h2]
            | subT => simp [h2]
            | mulT => simp [h2]
            | quoT => simp [h2]
            | otherB s => simp

/-- Claim C7: a formula whose AST contains a bare identifier absent from
the symbol table, or a call `math.F(...)` with `F` in neither whitelist,
or a call whose package prefix is not the reserved `math` namespace,
fails compilation with an error; it never compiles successfully (so no
such term can silently evaluate to zero or be ignored). -/
theorem c7_compile_rejects_offending (names : List String) (e : Expr)
    (h : offendingTerm names e = true) :
    ∃ msg, newEvaluation e names = .error msg := by
  have h1 := visit_offending_aux names (sizeOf e + 1) e (by omega) h
    { output := [], parseError := none }
  rcases Option.isSome_iff_exists.mp h1 with ⟨m, hm⟩
  exact ⟨m, by unfold newEvaluation; simp only; rw [hm]⟩

/-- Witness for C7: one concrete instance of each of the three offending
shapes is rejected. -/
theorem c7_compile_rejects_offending_witness :
    (∃ msg, newEvaluation (.idt "Z") ["", "N"] = .error msg) ∧
    (∃ msg, newEvaluation (.call (.selector (.idt "math") "Frob") [.idt "N"]) ["", "N"] =
      .error msg) ∧
    (∃ msg, newEvaluation (.call (.selector (.idt "fmt") "Log") [.idt "N"]) ["", "N"] =
      .error msg) :=
  ⟨c7_compile_rejects_offending ["", "N"] (.idt "Z") (by decide),
   c7_compile_rejects_offending ["", "N"] (.call (.selector (.idt "math") "Frob") [.idt "N"])
     (by decide),
   c7_compile_rejects_offending ["", "N"] (.call (.selector (.idt "fmt") "Log") [.idt "N"])
     (by decide)⟩

/-- The trailing-suffix decomposition of `strings.TrimRight`: the result is
a prefix of the input and every removed character occurs in the cutset. -/
theorem trimRight_decomp (name cutset : String) :
    ∃ suf : List Char,
      name.data = (trimRight name cutset).data ++ suf ∧ ∀ c ∈ suf, c ∈ cutset.data := by
  refine ⟨(name.data.reverse.takeWhile (fun c => c ∈ cutset.data)).reverse, ?_, ?_⟩
  · show name.data =
      (name.data.reverse.dropWhile (fun c => c ∈ cutset.data)).reverse ++
        (name.data.reverse.takeWhile (fun c => c ∈ cutset.data)).reverse
    rw [← List.reverse_append, List.takeWhile_append_dropWhile, List.reverse_reverse]
  · intro c hc
    rw [List.mem_reverse] at hc
    have := List.mem_takeWhile_imp hc
    simpa using this

/-- Claim C10: `sampleGroup` derives the group name with
`strings.TrimRight(name, input[0])`, which trims by character set: the
result is always a prefix of the benchmark name obtained by removing every
trailing character that occurs anywhere in the matched substring, and for
`BenchmarkSort45/5-4` (match `/5-4`) the digits `45` of the unmatched
prefix are also removed, so it lands in the same group `BenchmarkSort` as
`BenchmarkSort/7-4` although their unmatched prefixes differ. -/
theorem c10_group_name_merging :
    (∀ name cutset : String, ∃ suf : List Char,
        name.data = (trimRight name cutset).data ++ suf ∧ ∀ c ∈ suf, c ∈ cutset.data) ∧
    groupNameOf "BenchmarkSort45/5-4" "/5-4" = "BenchmarkSort" ∧
    groupNameOf "BenchmarkSort/7-4" "/7-4" = "BenchmarkSort" ∧
    ("BenchmarkSort" : String) ≠ "BenchmarkSort45" :=
  ⟨trimRight_decomp, by decide, by decide, by decide⟩

/-- Claim C5: when the least-squares solver detects rank deficiency (in
the exact model: a singular Gram matrix, as with exactly collinear
explanatory columns), `estimate` returns the no-model sentinel `none`,
never a partial vector; and any successful result has exactly `width`
(`x.Cols = len(x)/len(y)`) coefficients. -/
theorem c5_estimate_no_model (s : Samp) :
    (detL (gramOf (s.x.map FP.toQ) s.y.length (s.x.length / s.y.length)) = 0 →
      estimate s = none) ∧
    (∀ mm, estimate s = some mm → mm.length = s.x.length / s.y.length) := by
  constructor
  · intro hdet
    unfold estimate
    split
    · unfold gels
      simp [hdet]
    · rfl
  · intro mm hmm
    by_cases hf : (s.x.all FP.isFinite && s.y.all FP.isFinite) = true
    · by_cases hd :
          detL (gramOf (s.x.map FP.toQ) s.y.length (s.x.length / s.y.length)) = 0
      · simp [estimate, gels, hf, hd] at hmm
      · simp [estimate, gels, hf, hd] at hmm
        rw [← hmm]
        simp
    · simp [estimate, hf] at hmm

/-- Witness for C5: a sample with two exactly collinear (all-ones) columns
yields `none`, and a full-rank 2-column sample yields a length-2 model. -/
theorem c5_witness :
    estimate ⟨[FP.fin 1, FP.fin 1, FP.fin 1, FP.fin 1, FP.fin 1, FP.fin 1],
              [FP.fin 1, FP.fin 2, FP.fin 3]⟩ = none ∧
    ([FP.fin 3, FP.fin 5] : List FP).length = 2 :=
  ⟨(c5_estimate_no_model _).1 (by decide),
   (c5_estimate_no_model ⟨[FP.fin 1, FP.fin 0, FP.fin 0, FP.fin 1], [FP.fin 3, FP.fin 5]⟩).2
     [FP.fin 3, FP.fin 5] (by decide)⟩

/-- Claim C2 counterexample: for a sample with rows = width = 1 the Fit
Statistics computation does not fail fast: `stats` divides RSS by the zero
degrees-of-freedom count and returns normally, with R² = 1 and a NaN
half-width, signalling nothing (its result type has no error channel). -/
theorem c2_counterexample :
    stats tCrit0 [FP.fin 1] ⟨[FP.fin 2], [FP.fin 2]⟩ = (FP.fin 1, [FP.nan]) := by decide

/-- Claim C3 counterexample: for a sample whose Gram matrix XᵀX is
singular (two identical all-ones columns), `stats` ignores the discarded
inversion error and returns normally: R² is still computed (9/14) and a
full-length half-width vector is produced; no error distinct from solver
failure is surfaced (the function cannot signal at all). -/
theorem c3_counterexample :
    detL (gramOf ([FP.fin 1, FP.fin 1, FP.fin 1, FP.fin 1, FP.fin 1, FP.fin 1].map FP.toQ) 3 2)
        = 0 ∧
    (stats tCrit0 [FP.fin 1, FP.fin 0]
        ⟨[FP.fin 1, FP.fin 1, FP.fin 1, FP.fin 1, FP.fin 1, FP.fin 1],
          [FP.fin 1, FP.fin 2, FP.fin 3]⟩).1 = FP.fin (mkRat 9 14) ∧
    (stats tCrit0 [FP.fin 1, FP.fin 0]
        ⟨[FP.fin 1, FP.fin 1, FP.fin 1, FP.fin 1, FP.fin 1, FP.fin 1],
          [FP.fin 1, FP.fin 2, FP.fin 3]⟩).2.length = 2 :=
  ⟨by decide, by decide, by decide⟩

theorem map_getD_fin (l : List ℚ) (j : ℕ) :
    (l.map FP.fin).getD j (FP.fin 0) = FP.fin (l.getD j 0) := by
  induction l generalizing j with
  | nil => simp
  | cons a as ih => cases j <;> simp [ih]

theorem foldl_add_fin_of {β : Type} (l : List β) (F : FP → β → FP) (f : β → ℚ)
    (hF : ∀ a x, x ∈ l → F (FP.fin a) x = FP.fin (a + f x)) :
    ∀ a, l.foldl F (FP.fin a) = FP.fin (a + (l.map f).sum) := by
  induction l with
  | nil => intro a; simp
  | cons x xs ih =>
      intro a
      rw [List.foldl_cons, hF a x (by simp)]
      rw [ih (fun b y hy => hF b y (by simp [hy]))]
      simp [add_assoc]

theorem foldl_pair_fin_of {β : Type} (l : List β) (F : FP × FP → β → FP × FP)
    (f g : β → ℚ)
    (hF : ∀ a b x, x ∈ l →
      F (FP.fin a, FP.fin b) x = (FP.fin (a + f x), FP.fin (b + g x))) :
    ∀ a b, l.foldl F (FP.fin a, FP.fin b) =
      (FP.fin (a + (l.map f).sum), FP.fin (b + (l.map g).sum)) := by
  induction l with
  | nil => intro a b; simp
  | cons x xs ih =>
      intro a b
      rw [List.foldl_cons, hF a b x (by simp)]
      rw [ih (fun a2 b2 y hy => hF a2 b2 y (by simp [hy]))]
      simp [add_assoc]

theorem enum_map_eq_range (l : List ℚ) (f : ℕ → ℚ → ℚ) :
    l.enum.map (fun p => f p.1 p.2) = (List.range l.length).map (fun j => f j (l.getD j 0)) := by
  apply List.ext_getElem
  · simp
  · intro i h1 h2
    have hi : i < l.length := by simpa using h2
    simp [List.getElem_enum, List.getD_eq_getElem?_getD, List.getElem?_eq_getElem hi]

theorem getD_drop_take (xsq : List ℚ) (a w j : ℕ) (hj : j < w) (hlen : a + w ≤ xsq.length) :
    ((xsq.drop a).take w).getD j 0 = xsq.getD (a + j) 0 := by
  have hj2 : j < ((xsq.drop a).take w).length := by
    simp [List.length_take, List.length_drop]
    omega
  have hx : a + j < xsq.length := by omega
  rw [List.getD_eq_getElem _ _ hj2, List.getD_eq_getElem _ _ hx]
  simp [List.getElem_take, List.getElem_drop]

theorem yHatOf_fin (mq rowq : List ℚ) :
    yHatOf (mq.map FP.fin) (rowq.map FP.fin) =
      FP.fin (((List.range rowq.length).map (fun j => mq.getD j 0 * rowq.getD j 0)).sum) := by
  unfold yHatOf
  rw [List.enum_map, List.foldl_map]
  rw [foldl_add_fin_of (rowq.enum)
      (fun acc p => acc.add (((mq.map FP.fin).getD (Prod.map id FP.fin p).1 (FP.fin 0)).mul
        (Prod.map id FP.fin p).2))
      (fun p => mq.getD p.1 0 * p.2)
      (fun a p _ => by simp [Prod.map, map_getD_fin, FP.mul_fin, FP.add_fin])]
  rw [enum_map_eq_range rowq (fun a b => mq.getD a 0 * b)]
  simp

theorem yHat_spec (mq xsq : List ℚ) (yl : List FP) (w i : ℕ)
    (hiw : i * w + w ≤ xsq.length) :
    yHatOf (mq.map FP.fin) (sampRow ⟨xsq.map FP.fin, yl⟩ w i) = FP.fin (specYHat mq xsq w i) := by
  unfold sampRow
  simp only
  rw [← List.map_drop, ← List.map_take, yHatOf_fin]
  unfold specYHat
  congr 1
  have hlen : ((xsq.drop (i * w)).take w).length = w := by
    simp only [List.length_take, List.length_drop]
    omega
  rw [hlen]
  congr 1
  apply List.map_congr_left
  intro j hj
  rw [List.mem_range] at hj
  rw [getD_drop_take xsq (i * w) w j hj (by omega)]

theorem stats_loop_eq (mq xsq ysq : List ℚ) (w : ℕ)
    (hx : xsq.length = w * ysq.length) :
    (ysq.map FP.fin).enum.foldl
      (fun (a : FP × FP) iy =>
        let yHat := yHatOf (mq.map FP.fin)
          (sampRow ⟨xsq.map FP.fin, ysq.map FP.fin⟩ w iy.1)
        (a.1.add ((yHat.sub iy.2).mul (yHat.sub iy.2)), a.2.add (iy.2.mul iy.2)))
      (FP.fin 0, FP.fin 0) =
    (FP.fin (specRSS mq xsq ysq w), FP.fin (specTSS ysq)) := by
  rw [List.enum_map, List.foldl_map]
  rw [foldl_pair_fin_of ysq.enum _
      (fun p => (specYHat mq xsq w p.1 - p.2) ^ 2) (fun p => p.2 ^ 2) ?hF]
  case hF =>
    intro a b p hp
    have hp1 : p.1 < ysq.length := by
      rw [List.mem_enum_iff_getElem?] at hp
      rcases List.getElem?_eq_some.mp hp with ⟨h, _⟩
      exact h
    have hyh := yHat_spec mq xsq (ysq.map FP.fin) w p.1 (by
      rw [hx]
      have : p.1 + 1 ≤ ysq.length := hp1
      calc p.1 * w + w = (p.1 + 1) * w := by ring
        _ ≤ ysq.length * w := Nat.mul_le_mul_right w this
        _ = w * ysq.length := Nat.mul_comm _ _)
    simp only [Prod.map, id]
    simp only [hyh, FP.sub_fin, FP.mul_fin, FP.add_fin]
    simp [pow_two]
  · have h1 : (List.map (fun p : ℕ × ℚ => (specYHat mq xsq w p.1 - p.2) ^ 2) ysq.enum).sum
        = ((List.range ysq.length).map
            (fun i => (specYHat mq xsq w i - ysq.getD i 0) ^ 2)).sum := by
      rw [enum_map_eq_range ysq (fun i y => (specYHat mq xsq w i - y) ^ 2)]
    have h2 : (List.map (fun p : ℕ × ℚ => p.2 ^ 2) ysq.enum).sum
        = (ysq.map (fun y => y ^ 2)).sum := by
      rw [show (fun p : ℕ × ℚ => p.2 ^ 2) = (fun y : ℚ => y ^ 2) ∘ Prod.snd from rfl,
        ← List.map_map, List.enum_map_snd]
    unfold specRSS specTSS
    rw [Prod.mk.injEq]
    constructor
    · rw [zero_add, h1]
    · rw [zero_add, h2]

theorem specTSS_nonneg (ysq : List ℚ) : 0 ≤ specTSS ysq := by
  apply List.sum_nonneg
  intro q hq
  rcases List.mem_map.mp hq with ⟨y, _, rfl⟩
  positivity

theorem specRSS_nonneg (mq xsq ysq : List ℚ) (w : ℕ) : 0 ≤ specRSS mq xsq ysq w := by
  apply List.sum_nonneg
  intro q hq
  rcases List.mem_map.mp hq with ⟨i, _, rfl⟩
  positivity

/-- Claim C1: `stats` returns `r2 = 1 - RSS/TSS` with `RSS = Σ(ŷᵢ-yᵢ)²`
(ŷ the model-row dot product) and `TSS = Σyᵢ²` uncentered, and `r2` is
negative whenever `RSS > TSS`; the NaN codicil is amended: `r2` is NaN when
`TSS = 0` and additionally `RSS = 0` (for `TSS = 0 < RSS`, `r2 = -∞`). -/
theorem c1_r2_uncentered (tCrit : ℤ → FP) (mq xsq ysq : List ℚ) (w : ℕ)
    (hx : xsq.length = w * ysq.length) (hy : 1 ≤ ysq.length) :
    ((stats tCrit (mq.map FP.fin) ⟨xsq.map FP.fin, ysq.map FP.fin⟩).1 =
        (FP.fin 1).sub ((FP.fin (specRSS mq xsq ysq w)).div (FP.fin (specTSS ysq)))) ∧
    (specTSS ysq < specRSS mq xsq ysq w →
        ((stats tCrit (mq.map FP.fin) ⟨xsq.map FP.fin, ysq.map FP.fin⟩).1).isNeg = true) ∧
    (specTSS ysq = 0 → specRSS mq xsq ysq w = 0 →
        (stats tCrit (mq.map FP.fin) ⟨xsq.map FP.fin, ysq.map FP.fin⟩).1 = FP.nan) := by
  have hstride : (List.map FP.fin xsq).length / (List.map FP.fin ysq).length = w := by
    simp only [List.length_map, hx]
    exact Nat.mul_div_cancel w (show 0 < ysq.length by omega)
  have hmain : (stats tCrit (mq.map FP.fin) ⟨xsq.map FP.fin, ysq.map FP.fin⟩).1 =
      (FP.fin 1).sub ((FP.fin (specRSS mq xsq ysq w)).div (FP.fin (specTSS ysq))) := by
    unfold stats
    dsimp only
    simp only [hstride]
    rw [stats_loop_eq mq xsq ysq w hx]
  refine ⟨hmain, ?_, ?_⟩
  · intro hlt
    rw [hmain]
    rcases eq_or_lt_of_le (specTSS_nonneg ysq) with h0 | hpos
    · have hrss : 0 < specRSS mq xsq ysq w := by linarith
      have hdiv : (FP.fin (specRSS mq xsq ysq w)).div (FP.fin (specTSS ysq)) = FP.pinf := by
        rw [← h0]
        simp [FP.div, hrss]
      rw [hdiv]
      decide
    · have hne : specTSS ysq ≠ 0 := ne_of_gt hpos
      have hdiv : (FP.fin (specRSS mq xsq ysq w)).div (FP.fin (specTSS ysq)) =
          FP.fin (specRSS mq xsq ysq w / specTSS ysq) := by
        simp [FP.div, hne]
      rw [hdiv, FP.sub_fin]
      have h1 : 1 < specRSS mq xsq ysq w / specTSS ysq := (one_lt_div hpos).mpr hlt
      simp only [FP.isNeg, decide_eq_true_eq]
      linarith
  · intro h0 hr0
    rw [hmain, h0, hr0]
    decide

/-- Claim C1 counterexample to the codicil "r2 is NaN when TSS = 0": for
x=[1], y=[0], m=[1] the total sum of squares is 0 but RSS = 1, and
`r2 = 1 - 1/0 = -∞`, which is not NaN. -/
theorem c1_counterexample :
    (stats tCrit0 [FP.fin 1] ⟨[FP.fin 1], [FP.fin 0]⟩).1 = FP.ninf ∧ FP.ninf ≠ FP.nan :=
  ⟨by decide, by decide⟩

/-- Witness for C1 at a concrete one-column two-row sample. -/
theorem c1_witness :
    (stats tCrit0 ([(1 : ℚ)].map FP.fin)
        ⟨[(2 : ℚ), (3 : ℚ)].map FP.fin, [(1 : ℚ), (2 : ℚ)].map FP.fin⟩).1 =
      (FP.fin 1).sub
        ((FP.fin (specRSS [(1 : ℚ)] [(2 : ℚ), (3 : ℚ)] [(1 : ℚ), (2 : ℚ)] 1)).div
          (FP.fin (specTSS [(1 : ℚ), (2 : ℚ)]))) :=
  (c1_r2_uncentered tCrit0 [(1 : ℚ)] [(2 : ℚ), (3 : ℚ)] [(1 : ℚ), (2 : ℚ)] 1
    (by decide) (by decide)).1

theorem div_fin_zero_not_finite (q : ℚ) :
    ((FP.fin q).div (FP.fin 0)).isFinite = false := by
  simp only [FP.div]
  split_ifs with h1 h2 h3 <;> simp_all [FP.isFinite]

theorem cint_entry_not_finite (tCrit : ℤ → FP) (d : ℚ) (mse : FP) (df : ℤ)
    (h : mse.isFinite = false) :
    (conf95 tCrit (FP.sqrt ((FP.fin d).mul mse)) df).isFinite = false := by
  unfold conf95
  exact FP.mul_not_finite _ _ (FP.sqrt_not_finite _ (FP.mul_not_finite _ _ h))

/-- Claim C2 (amended): `stats` performs no degrees-of-freedom check.
For a sample with rows = width (≥ 1) it divides RSS by the zero count
`float64(rows - stride)` and returns normally; every confidence half-width
it returns is non-finite (NaN or ±∞), and nothing is signaled (the
function has no error channel). -/
theorem c2_amended_no_dof_check (tCrit : ℤ → FP) (mq xsq ysq : List ℚ) (w : ℕ)
    (hw : 1 ≤ w) (hrows : ysq.length = w) (hx : xsq.length = w * w) :
    ∀ c ∈ (stats tCrit (mq.map FP.fin) ⟨xsq.map FP.fin, ysq.map FP.fin⟩).2,
      c.isFinite = false := by
  have hx2 : xsq.length = w * ysq.length := by rw [hrows]; exact hx
  have hstride : (List.map FP.fin xsq).length / (List.map FP.fin ysq).length = w := by
    simp only [List.length_map, hx2]
    exact Nat.mul_div_cancel w (show 0 < ysq.length by omega)
  intro c hc
  unfold stats at hc
  dsimp only at hc
  simp only [hstride] at hc
  rw [stats_loop_eq mq xsq ysq w hx2] at hc
  rcases List.mem_map.mp hc with ⟨i, _, rfl⟩
  apply cint_entry_not_finite
  have hdf : ((List.map FP.fin ysq).length : ℤ) - (w : ℤ) = 0 := by
    simp [hrows]
  rw [hdf]
  show ((FP.fin (specRSS mq xsq ysq w)).div (FP.fin ((0 : ℤ) : ℚ))).isFinite = false
  rw [show (((0 : ℤ) : ℚ)) = (0 : ℚ) by norm_num]
  exact div_fin_zero_not_finite _

/-- Witness for the amended C2 at the concrete rows = width = 1 sample. -/
theorem c2_amended_witness : FP.nan.isFinite = false :=
  c2_amended_no_dof_check tCrit0 [(1 : ℚ)] [(2 : ℚ)] [(2 : ℚ)] 1
    (by decide) (by decide) (by decide) FP.nan (by decide)

/-- Claim C3 (amended): the `mat64` inversion error for a singular Gram
matrix is discarded at the call site; `stats` returns normally with a
half-width entry for every column, computed from unspecified matrix
contents, and surfaces no error distinct from solver failure (its result
type has no error channel at all). -/
theorem c3_amended_ignores_inversion_failure (tCrit : ℤ → FP) (m : List FP) (s : Samp)
    (hdet : detL (gramOf (s.x.map FP.toQ) s.y.length (s.x.length / s.y.length)) = 0) :
    (stats tCrit m s).2.length = s.x.length / s.y.length := by
  unfold stats
  dsimp only
  simp

/-- Witness for the amended C3 at the concrete singular two-column sample. -/
theorem c3_amended_witness :
    (stats tCrit0 [FP.fin 1, FP.fin 0]
        ⟨[FP.fin 1, FP.fin 1, FP.fin 1, FP.fin 1, FP.fin 1, FP.fin 1],
          [FP.fin 1, FP.fin 2, FP.fin 3]⟩).2.length = 2 :=
  c3_amended_ignores_inversion_failure tCrit0 [FP.fin 1, FP.fin 0]
    ⟨[FP.fin 1, FP.fin 1, FP.fin 1, FP.fin 1, FP.fin 1, FP.fin 1],
      [FP.fin 1, FP.fin 2, FP.fin 3]⟩ (by decide)

theorem setKey_mem {α : Type} (l : List (String × α)) (k : String) (v : α)
    (gs : String × α) (h : gs ∈ setKey l k v) : gs = (k, v) ∨ gs ∈ l := by
  induction l with
  | nil => simpa [setKey] using h
  | cons p t ih =>
      rw [setKey] at h
      by_cases hp : p.1 = k
      · rw [if_pos hp] at h
        rcases List.mem_cons.mp h with h1 | h2
        · left; exact h1
        · right; exact List.mem_cons_of_mem _ h2
      · rw [if_neg hp] at h
        rcases List.mem_cons.mp h with h1 | h2
        · right; simp [h1]
        · rcases ih h2 with h3 | h4
          · left; exact h3
          · right; simp [h4]

theorem lookupD_mem {α : Type} (l : List (String × α)) (k : String) (d : α) :
    lookupD l k d = d ∨ (k, lookupD l k d) ∈ l := by
  unfold lookupD
  cases hf : l.find? (fun p => p.1 = k) with
  | none => left; rfl
  | some p =>
      right
      have hmem := List.mem_of_find?_eq_some hf
      have hpk : p.1 = k := by simpa using List.find?_some hf
      rw [← hpk]
      simpa using hmem

theorem lookupD_setKey_self {α : Type} (l : List (String × α)) (k : String) (v : α) (d : α) :
    lookupD (setKey l k v) k d = v := by
  induction l with
  | nil => simp [setKey, lookupD]
  | cons p t ih =>
      rw [setKey]
      by_cases hp : p.1 = k
      · rw [if_pos hp]
        simp [lookupD]
      · rw [if_neg hp]
        unfold lookupD
        rw [List.find?_cons_of_neg _ (by simpa using hp)]
        exact ih

theorem foldl_samp_growth (nX : ℕ) (F : Samp → Bench → Samp)
    (hF : ∀ s b, (F s b).x.length = s.x.length + nX ∧ (F s b).y.length = s.y.length + 1) :
    ∀ (bs : List Bench) (s : Samp),
      (bs.foldl F s).x.length = s.x.length + nX * bs.length ∧
      (bs.foldl F s).y.length = s.y.length + bs.length := by
  intro bs
  induction bs with
  | nil => intro s; simp
  | cons b t ih =>
      intro s
      rw [List.foldl_cons]
      rcases ih (F s b) with ⟨ihx, ihy⟩
      rcases hF s b with ⟨hx, hy⟩
      constructor
      · rw [ihx, hx]
        simp [Nat.mul_succ]
        ring
      · rw [ihy, hy]
        simp
        omega

theorem stepBench_preserves_inv
    (matchFn : String → Option (String × List (String × String)))
    (xExprs : List (List Instr)) (yExpr : List Instr) (yVar : YVar)
    (samps : List (String × Samp)) (entry : String × List Bench)
    (hinv : ∀ gs ∈ samps, gs.2.x.length = xExprs.length * gs.2.y.length) :
    ∀ gs ∈ stepBench matchFn xExprs yExpr yVar samps entry,
      gs.2.x.length = xExprs.length * gs.2.y.length := by
  intro gs hgs
  unfold stepBench at hgs
  cases hm : matchFn entry.1 with
  | none => rw [hm] at hgs; exact hinv gs hgs
  | some fc =>
      rw [hm] at hgs
      obtain ⟨full, caps⟩ := fc
      dsimp only at hgs
      cases hv : parseVars caps with
      | none => rw [hv] at hgs; exact hinv gs hgs
      | some vars =>
          rw [hv] at hgs
          dsimp only at hgs
          rcases setKey_mem _ _ _ _ hgs with h1 | h2
          · rw [h1]
            have hF : ∀ (s : Samp) (b : Bench),
                ((⟨s.x ++ xExprs.map (fun p => evalE p vars),
                    s.y ++ [evalE yExpr (setKey vars "Y" (yField yVar b))]⟩ : Samp)).x.length
                    = s.x.length + xExprs.length ∧
                ((⟨s.x ++ xExprs.map (fun p => evalE p vars),
                    s.y ++ [evalE yExpr (setKey vars "Y" (yField yVar b))]⟩ : Samp)).y.length
                    = s.y.length + 1 := by
              intro s b
              constructor <;> simp
            have hg := foldl_samp_growth xExprs.length _ hF entry.2
              (lookupD samps (groupNameOf entry.1 full) ⟨[], []⟩)
            rcases hg with ⟨hgx, hgy⟩
            have hs0 : (lookupD samps (groupNameOf entry.1 full) ⟨[], []⟩).x.length =
                xExprs.length *
                  (lookupD samps (groupNameOf entry.1 full) ⟨[], []⟩).y.length := by
              rcases lookupD_mem samps (groupNameOf entry.1 full) (⟨[], []⟩ : Samp) with hd | hm2
              · rw [hd]
                simp
              · exact hinv _ hm2
            dsimp only
            rw [hgx, hgy, hs0]
            ring
          · exact hinv gs h2

/-- Claim C9: every group sample built by `sampleGroup` satisfies the width
invariant `len(x) = |xExprs| · len(y)`; a benchmark entry whose captured
substring fails numeric parsing is skipped whole and contributes no
partial row; and a processed entry appends exactly one response value and
one row of width `|xExprs|` per benchmark record. -/
theorem c9_sample_width_invariant
    (benchSet : List (String × List Bench))
    (matchFn : String → Option (String × List (String × String)))
    (xExprs : List (List Instr)) (yExpr : List Instr) (yVar : YVar) :
    (∀ gs ∈ sampleGroup benchSet matchFn xExprs yExpr yVar,
        gs.2.x.length = xExprs.length * gs.2.y.length) ∧
    (∀ (samps : List (String × Samp)) (entry : String × List Bench) full caps,
        matchFn entry.1 = some (full, caps) → parseVars caps = none →
        stepBench matchFn xExprs yExpr yVar samps entry = samps) ∧
    (∀ (samps : List (String × Samp)) (entry : String × List Bench) full caps vars,
        matchFn entry.1 = some (full, caps) → parseVars caps = some vars →
        (lookupD (stepBench matchFn xExprs yExpr yVar samps entry)
            (groupNameOf entry.1 full) ⟨[], []⟩).x.length =
          (lookupD samps (groupNameOf entry.1 full) ⟨[], []⟩).x.length +
            xExprs.length * entry.2.length ∧
        (lookupD (stepBench matchFn xExprs yExpr yVar samps entry)
            (groupNameOf entry.1 full) ⟨[], []⟩).y.length =
          (lookupD samps (groupNameOf entry.1 full) ⟨[], []⟩).y.length + entry.2.length) := by
  refine ⟨?_, ?_, ?_⟩
  · have main : ∀ (bs : List (String × List Bench)) (samps : List (String × Samp)),
        (∀ gs ∈ samps, gs.2.x.length = xExprs.length * gs.2.y.length) →
        ∀ gs ∈ bs.foldl (stepBench matchFn xExprs yExpr yVar) samps,
          gs.2.x.length = xExprs.length * gs.2.y.length := by
      intro bs
      induction bs with
      | nil => intro samps h; simpa using h
      | cons e t ih =>
          intro samps h
          rw [List.foldl_cons]
          exact ih _ (stepBench_preserves_inv matchFn xExprs yExpr yVar samps e h)
    intro gs hgs
    exact main benchSet [] (by simp) gs hgs
  · intro samps entry full caps hm hv
    unfold stepBench
    rw [hm]
    dsimp only
    rw [hv]
  · intro samps entry full caps vars hm hv
    unfold stepBench
    rw [hm]
    dsimp only
    rw [hv]
    dsimp only
    rw [lookupD_setKey_self]
    have hF : ∀ (s : Samp) (b : Bench),
        ((⟨s.x ++ xExprs.map (fun p => evalE p vars),
            s.y ++ [evalE yExpr (setKey vars "Y" (yField yVar b))]⟩ : Samp)).x.length
            = s.x.length + xExprs.length ∧
        ((⟨s.x ++ xExprs.map (fun p => evalE p vars),
            s.y ++ [evalE yExpr (setKey vars "Y" (yField yVar b))]⟩ : Samp)).y.length
            = s.y.length + 1 := by
      intro s b
      constructor <;> simp
    exact foldl_samp_growth xExprs.length _ hF entry.2
      (lookupD samps (groupNameOf entry.1 full) ⟨[], []⟩)

/-- Witness for C9 on a concrete one-benchmark set. -/
theorem c9_witness :
    ([FP.fin 10, FP.fin 1] : List FP).length =
      ([[Instr.varRef "N"], [Instr.lit "1.0" 1]] : List (List Instr)).length *
        ([FP.fin 100] : List FP).length :=
  (c9_sample_width_invariant [("BenchmarkFoo10-4", [⟨FP.fin 100, 0, 0, FP.fin 0⟩])]
      (fun n => if n = "BenchmarkFoo10-4" then some ("10-4", [("N", "10")]) else none)
      [[Instr.varRef "N"], [Instr.lit "1.0" 1]] [Instr.varRef "Y"] YVar.nsPerOp).1
    ("BenchmarkFoo", ⟨[FP.fin 10, FP.fin 1], [FP.fin 100]⟩) (by decide)
